import Mathlib

/-!
# Verification of `open-api-to-http`

A shallow embedding of the core of the `open-api-to-http` converter
(`src/http_data.rs`, `src/open_api.rs`, `src/comment.rs`, `src/app.rs`) and
proofs about it.  Strings are modelled as `List Char` so that splitting and
joining admit direct structural reasoning; Rust `HashMap`/`HashSet` values are
modelled as association lists / finite sets, with iteration order taken to be
list order where the Rust iteration order is unspecified.  A Rust `panic!` (or
`unwrap` on `None`) is modelled as an `Except.error` carrying the panic site.
-/

set_option autoImplicit false

/-- Strings are lists of characters in this development. -/
abbrev Str := List Char

/-- Decidable equality for `Except`, used to evaluate the embedding on
concrete inputs. -/
instance {ε α : Type} [DecidableEq ε] [DecidableEq α] :
    DecidableEq (Except ε α) := fun x y =>
  match x, y with
  | .error e, .error f =>
    if h : e = f then .isTrue (by rw [h]) else .isFalse (by simp [h])
  | .ok a, .ok b =>
    if h : a = b then .isTrue (by rw [h]) else .isFalse (by simp [h])
  | .error _, .ok _ => .isFalse (by simp)
  | .ok _, .error _ => .isFalse (by simp)

namespace Strutil

/-- Split a character list at every occurrence of `c`; mirrors Rust
`str::split(c)` (so `"".split` is `[""]`, `"/a".split('/')` is `["", "a"]`). -/
def splitChar (c : Char) : Str → List Str
  | [] => [[]]
  | x :: xs =>
    if x = c then [] :: splitChar c xs
    else (splitChar c xs).modifyHead (fun y => x :: y)

/-- Join with a separator character; mirrors Rust `Vec::join("/")`. -/
def joinChar (c : Char) : List Str → Str
  | [] => []
  | [s] => s
  | s :: rest => s ++ c :: joinChar c rest

end Strutil

open Strutil

namespace open_api

/-- `PrimitiveType` from `src/open_api.rs`. -/
inductive PrimitiveType where
  | String
  | Number
  | Integer
  | Boolean
  | Array
  | Object
  deriving DecidableEq, Repr

/-- `PrimitiveType::to_string` (Rust `Debug` formatting). -/
def PrimitiveType.to_string : PrimitiveType → Str
  | .String => "String".data
  | .Number => "Number".data
  | .Integer => "Integer".data
  | .Boolean => "Boolean".data
  | .Array => "Array".data
  | .Object => "Object".data

mutual

/-- `Schema` from `src/open_api.rs`: either a plain `Object` or one of the
composition keywords, each holding a vector of `Object`s. -/
inductive Schema where
  | Object : Obj → Schema
  | AllOf : List Obj → Schema
  | AnyOf : List Obj → Schema
  | OneOf : List Obj → Schema
  | Not : List Obj → Schema

/-- `Object` from `src/open_api.rs` (fields `properties`, `required`,
`type`); the `properties` map is modelled as an association list. -/
inductive Obj where
  | mk : Option (List (Str × Schema)) → Option (List Str) → PrimitiveType → Obj

end

def Obj.properties : Obj → Option (List (Str × Schema))
  | .mk p _ _ => p

def Obj.required : Obj → Option (List Str)
  | .mk _ r _ => r

def Obj.type : Obj → PrimitiveType
  | .mk _ _ t => t

/-- `Schema::get_all_types` from `src/open_api.rs`: start from an empty
`HashSet` and insert the declared `type` of the node itself (`Object`) or of
every immediate member (`allOf`/`anyOf`/`oneOf`/`not`). -/
def Schema.get_all_types : Schema → Finset PrimitiveType
  | .Object o => insert o.type ∅
  | .AllOf l => l.foldl (fun s o => insert o.type s) ∅
  | .AnyOf l => l.foldl (fun s o => insert o.type s) ∅
  | .OneOf l => l.foldl (fun s o => insert o.type s) ∅
  | .Not l => l.foldl (fun s o => insert o.type s) ∅

/-- `SecurityTokenLocation` from `src/open_api.rs`. -/
inductive SecurityTokenLocation where
  | Query
  | Header
  | Cookie
  deriving DecidableEq, Repr

/-- `SecurityTokenLocation::to_string` (Rust `Debug` formatting). -/
def SecurityTokenLocation.to_string : SecurityTokenLocation → Str
  | .Query => "Query".data
  | .Header => "Header".data
  | .Cookie => "Cookie".data

/-- `SecuritySchema` from `src/open_api.rs`.  `ApiKey` keeps the `name` and
`in` fields used by the converter; the unused `type` discriminant field and
the raw JSON payload of `Unknown` are elided. -/
inductive SecuritySchema where
  | ApiKey : Str → SecurityTokenLocation → SecuritySchema
  | BearerToken : SecuritySchema
  | Unknown : SecuritySchema
  deriving DecidableEq, Repr

def SecuritySchema.api_key_name : SecuritySchema → Option Str
  | .ApiKey n _ => some n
  | _ => none

/-- `Components` from `src/open_api.rs`; the `securitySchemes` map is an
association list whose order models one `HashMap` iteration order. -/
structure Components where
  security_schemes : Option (List (Str × SecuritySchema))
  deriving DecidableEq, Repr

/-- Association-list lookup, modelling `HashMap::get`. -/
def tableGet : List (Str × SecuritySchema) → Str → Option SecuritySchema
  | [], _ => none
  | (k, v) :: rest, key => if k = key then some v else tableGet rest key

end open_api

namespace http_data

open open_api

/-- The sites at which the Rust code can `panic!` during path resolution. -/
inductive PanicKind where
  | invalidEndpoint
  | unwrapNone
  deriving DecidableEq, Repr

/-- `is_query_param` from `src/http_data.rs`: a segment is a path parameter
when it starts with `{` and contains `}`. -/
def is_query_param (subs : Str) : Bool :=
  (match subs with
   | [] => false
   | c :: _ => c = '{') && subs.contains '}'

/-- `Names` from `src/http_data.rs` (the resolved `PathIdentity`). -/
structure Names where
  folders : List Str
  file_path : Str
  file_name : Str
  http_path : Str
  deriving DecidableEq, Repr

/-- The segment filter of `Names::new`: keep non-empty, non-parameter
segments. -/
def keepSegment (s : Str) : Bool :=
  decide (0 < s.length) && !is_query_param s

/-- The folder-accumulating fold body of `Names::new`. -/
def foldersStep (acc : List Str) (folder : Str) : List Str :=
  match acc.getLast? with
  | none => acc ++ [folder]
  | some last => acc ++ [last ++ '/' :: folder]

/-- `Names::new` from `src/http_data.rs`.  The length-zero guard runs on the
raw split (before `retain`), and the subsequent `splits.pop().unwrap()`
panics when every segment was filtered out; both panics are surfaced as
`Except.error`. -/
def Names.new (value : Str) : Except PanicKind Names :=
  let splits0 := splitChar '/' value
  if splits0.length = 0 then
    .error .invalidEndpoint
  else
    let splits := splits0.filter keepSegment
    let file_path := '/' :: joinChar '/' splits
    match splits.getLast? with
    | none => .error .unwrapNone
    | some file_name =>
      let rest := splits.dropLast
      let folders := rest.foldl foldersStep []
      .ok { folders := folders
            file_path := file_path
            file_name := file_name
            http_path := value }

/-- `Comment` from `src/comment.rs`, with the `description` field used by
`src/http_data.rs`. -/
structure Comment where
  possible_types : Finset PrimitiveType
  name : Str
  required : Option Bool
  default : Option Str
  description : Option Str
  deriving DecidableEq

/-- `CommentsHolder`, with the `security` group used by `src/http_data.rs`. -/
structure CommentsHolder where
  query : List Comment
  parameters : List Comment
  body : List Comment
  security : List Comment
  deriving DecidableEq

/-- A fixed enumeration of `PrimitiveType`, used to render the unordered
`HashSet` of types deterministically. -/
def typeOrder : List PrimitiveType :=
  [.String, .Number, .Integer, .Boolean, .Array, .Object]

/-- `Comment::get_formatted` from `src/comment.rs`: the name, a `?` marker
when the comment is explicitly optional, then the possible types joined by
commas. -/
def Comment.get_formatted (c : Comment) : Str :=
  let name_with_optional_indicator :=
    match c.required with
    | some false => c.name ++ "?".data
    | _ => c.name
  name_with_optional_indicator ++ ": ".data ++
    joinChar ','
      ((typeOrder.filter (fun t => t ∈ c.possible_types)).map
        PrimitiveType.to_string)

/-- `get_formatted_comment` from `src/comment.rs`: a `# <location>` heading,
one `#  - <comment>` line per entry, and a closing `#` line. -/
def get_formatted_comment (value : List Comment) (location : Str) : Str :=
  "# ".data ++ location ++ '\n' ::
    (value.map (fun c => "#  - ".data ++ c.get_formatted ++ ['\n'])).flatten ++
    "#".data

/-- The section list of `CommentsHolder::get_formatted`: one rendered
section per non-empty group among query/parameters/body. -/
def holderSections (h : CommentsHolder) : List Str :=
  (if 0 < h.query.length then [get_formatted_comment h.query "Query".data] else []) ++
  (if 0 < h.parameters.length then
    [get_formatted_comment h.parameters "Parameters".data] else []) ++
  (if 0 < h.body.length then [get_formatted_comment h.body "Body".data] else [])

/-- `CommentsHolder::get_formatted` from `src/comment.rs`: the non-empty
groups among query/parameters/body, each rendered as a section, joined by
newlines.  (The `security` group added later in `src/http_data.rs` is not
rendered by the formatter shipped in `src/comment.rs`.) -/
def CommentsHolder.get_formatted (h : CommentsHolder) : Str :=
  joinChar '\n' (holderSections h)

/-- Warning text of `get_auth_schema` for a name missing from the scheme
table (message reproduced from the source, typo included). -/
def warnMissing (name : Str) : Str :=
  "[warn] ".data ++ name ++ " is missing in the security_schema defition".data

/-- Warning text of `get_auth_schema` when no requirement provides a name. -/
def warnNotFound : Str :=
  "[warn] Matching security schema was not found".data

/-- `get_auth_schema` from `src/http_data.rs`.  Each requirement is an
association list (first key = the scheme name the code reads via
`keys().next()`).  The `eprintln!` warnings are returned alongside the
result, in emission order. -/
def get_auth_schema (auth_options : List (List (Str × List Str)))
    (security_schema : List (Str × SecuritySchema)) :
    Option SecuritySchema × List Str :=
  match auth_options with
  | [] => (none, [warnNotFound])
  | auth :: rest =>
    match auth.head? with
    | none => get_auth_schema rest security_schema
    | some (name, _) =>
      match tableGet security_schema name with
      | none => (none, [warnMissing name])
      | some schema => (some schema, [])

end http_data

namespace open_api

/-- `HttpMethod` from `src/open_api.rs` (lowercase schema method enum). -/
inductive HttpMethod where
  | get
  | post
  | put
  | delete
  | patch
  deriving DecidableEq, Repr

/-- `HttpMethod::get_value`: uppercase Debug rendering of the method. -/
def HttpMethod.get_value : HttpMethod → Str
  | .get => "GET".data
  | .post => "POST".data
  | .put => "PUT".data
  | .delete => "DELETE".data
  | .patch => "PATCH".data

/-- `Parameters` from `src/open_api.rs`.  The raw JSON `schema` field is
modelled as an optional `Schema`; the converter never reads it. -/
structure Parameters where
  r_in : Str
  schema : Option Schema
  name : Str
  required : Option Bool
  default : Option Str

/-- `MediaType` from `src/open_api.rs`. -/
structure MediaType where
  schema : Option Schema

/-- `RequestBody` from `src/open_api.rs`; the `content` map is an
association list (one `HashMap` iteration order), unused `description` and
`required` fields elided. -/
structure RequestBody where
  content : List (Str × MediaType)

/-- `Operation` from `src/open_api.rs` (the `responses` field, unused by the
converter, is elided). -/
structure Operation where
  parameters : Option (List Parameters)
  request_body : Option RequestBody
  security : Option (List (List (Str × List Str)))

end open_api

namespace http_data

open open_api

/-- The uppercase `HttpMethod` from `src/http_data.rs`. -/
inductive HttpMethodUpper where
  | GET
  | POST
  | PUT
  | PATCH
  | DELETE
  deriving DecidableEq, Repr

/-- `impl From<open_api::HttpMethod> for HttpMethod`. -/
def HttpMethodUpper.from : open_api.HttpMethod → HttpMethodUpper
  | .get => .GET
  | .post => .POST
  | .put => .PUT
  | .patch => .PATCH
  | .delete => .DELETE

/-- `HttpMethod::to_string` from `src/http_data.rs` (Debug rendering). -/
def HttpMethodUpper.to_string : HttpMethodUpper → Str
  | .GET => "GET".data
  | .POST => "POST".data
  | .PUT => "PUT".data
  | .PATCH => "PATCH".data
  | .DELETE => "DELETE".data

/-- `HttpData` from `src/http_data.rs`. -/
structure HttpData where
  method : HttpMethodUpper
  path : Str
  host : Str
  content_type : Option Str
  auth : Option Str
  comments : CommentsHolder
  deriving DecidableEq

/-- `impl Default for HttpData` from `src/http_data.rs`: note the lowercase
`host:` header text. -/
def HttpData.default : HttpData :=
  { method := .GET
    path := []
    host := "host: {{HTTP_HOST}}".data
    comments := { query := [], parameters := [], body := [], security := [] }
    auth := none
    content_type := none }

/-- `create_comment_from_props` from `src/http_data.rs`: one comment per
property, `required` flag set iff the property name occurs in the schema's
`required` list (empty when absent), default `Some("")`. -/
def create_comment_from_props (props : Option (List (Str × Schema)))
    (required : Option (List Str)) : List Comment :=
  match props with
  | none => []
  | some ps =>
    ps.map fun kv =>
      { possible_types := kv.2.get_all_types
        name := kv.1
        default := some []
        required := some ((required.getD []).contains kv.1)
        description := none }

/-- The per-parameter body of the `parameters` loop in `HttpData::new`:
query parameters and path parameters are kept (with type set `{String}`),
every other location is dropped. -/
def paramStep (d : HttpData) (p : Parameters) : HttpData :=
  let c : Comment :=
    { possible_types := {PrimitiveType.String}
      name := p.name
      required := p.required
      default := p.default
      description := none }
  if p.r_in = "query".data then
    { d with comments.query := d.comments.query ++ [c] }
  else if p.r_in = "path".data then
    { d with comments.parameters := d.comments.parameters ++ [c] }
  else d

/-- The per-media-type body of the `request_body` loop in `HttpData::new`:
only the `application/json` entry is recognized; it sets the content type
and appends body comments from the schema (per member for compositions). -/
def bodyStep (d : HttpData) (kv : Str × MediaType) : HttpData :=
  if kv.1 = "application/json".data then
    let d := { d with content_type := some "Content-Type: application/json".data }
    match kv.2.schema with
    | none => d
    | some (.Object obj) =>
      { d with comments.body :=
          d.comments.body ++ create_comment_from_props obj.properties obj.required }
    | some (.AllOf l) | some (.AnyOf l) | some (.OneOf l) | some (.Not l) =>
      let bs := l.foldl
        (fun bs obj => bs ++ create_comment_from_props obj.properties obj.required)
        d.comments.body
      { d with comments.body := bs }
  else d

/-- The security block of `HttpData::new`: resolve the auth scheme and turn
it into either a bearer header or a security comment. -/
def authStep (d : HttpData) (op : Operation) (comps : Option Components) :
    HttpData :=
  match comps with
  | none => d
  | some comps =>
    match op.security, comps.security_schemes with
    | some auth_options, some security_schemas =>
      match (get_auth_schema auth_options security_schemas).1 with
      | some .BearerToken =>
        { d with auth := some "Authorization: Bearer {{TOKEN}}".data }
      | some (.ApiKey name location) =>
        { d with comments.security := d.comments.security ++
            [{ possible_types := {PrimitiveType.String}
               name := name
               required := some true
               default := none
               description := some ("Located in ".data ++ location.to_string) }] }
      | some .Unknown => d
      | none => d
    | _, _ => d

/-- `HttpData::new` from `src/http_data.rs`: start from the default record,
set method and path, resolve auth, then parameters, then the request body. -/
def HttpData.new (names : Names) (endpoint_info : Operation)
    (method : open_api.HttpMethod) (comps : Option Components) : HttpData :=
  let d := { HttpData.default with
             method := HttpMethodUpper.from method
             path := names.http_path }
  let d := authStep d endpoint_info comps
  let d := (endpoint_info.parameters.getD []).foldl paramStep d
  match endpoint_info.request_body with
  | none => d
  | some body => body.content.foldl bodyStep d

/-- An optional line: `Some` contributes one output line, `None` none. -/
def optList : Option Str → List Str
  | some s => [s]
  | none => []

/-- `HttpData::get_formatted` from `src/http_data.rs`: optional comment
section, `METHOD path` request line, host line, optional content-type and
auth lines, joined by newlines. -/
def HttpData.get_formatted (d : HttpData) : Str :=
  let comments := d.comments.get_formatted
  let output : List Str :=
    (if 0 < comments.length then [comments] else []) ++
    [d.method.to_string ++ ' ' :: d.path] ++
    [d.host] ++
    optList d.content_type ++
    optList d.auth
  joinChar '\n' output

end http_data

namespace app

open open_api http_data

/-- `OpenApi` from `src/open_api.rs`: `paths` as an association list from a
raw path to its method → operation map (list order models one `HashMap`
iteration order). -/
structure OpenApi where
  paths : List (Str × List (open_api.HttpMethod × Operation))
  components : Option Components

/-- The per-document placement decision at the end of `Application::run`:
a document with several operations, or whose `file_path` occurs in the
global folder set, goes inside a directory as `file_path/file_name.http`;
otherwise it is written flat as `file_path.http`. -/
def finalFilePath (folder_map : List Str) (data : List Str) (names : Names) :
    Str :=
  if 1 < data.length then
    names.file_path ++ '/' :: names.file_name ++ ".http".data
  else if folder_map.contains names.file_path then
    names.file_path ++ '/' :: names.file_name ++ ".http".data
  else
    names.file_path ++ ".http".data

/-- Insert into the `endpoints_map`: append the freshly formatted blocks to
an existing entry with the same `file_path`, or add a new entry. -/
def insertEndpoint (emap : List (Str × (List Str × Names)))
    (key : Str) (blocks : List Str) (names : Names) :
    List (Str × (List Str × Names)) :=
  match emap with
  | [] => [(key, (blocks, names))]
  | (k, (bs, n)) :: rest =>
    if k = key then (k, (bs ++ blocks, n)) :: rest
    else (k, (bs, n)) :: insertEndpoint rest key blocks names

/-- The first loop of `Application::run`: resolve each path, format every
operation, group blocks by `file_path`, and extend the global folder set. -/
def collectEndpoints (schema : OpenApi) :
    Except PanicKind (List (Str × (List Str × Names)) × List Str) :=
  schema.paths.foldlM
    (fun acc entry => do
      let names ← Names.new entry.1
      let formatted := entry.2.map
        (fun me => (HttpData.new names me.2 me.1 schema.components).get_formatted)
      pure (insertEndpoint acc.1 names.file_path formatted names,
            acc.2 ++ names.folders))
    ([], [])

/-- Helper for `"\n\n"`-joining: interleave an empty line between blocks, so
`joinChar '\n' (joinSep blocks)` is Rust's `blocks.join("\n\n")`. -/
def joinSep : List Str → List Str
  | [] => []
  | [b] => [b]
  | b :: rest => b :: [] :: joinSep rest

/-- The output phase of `Application::run`: each grouped document becomes a
final file path (placement per `finalFilePath`) and its blocks joined by a
blank line. -/
def Application.run (schema : OpenApi) :
    Except PanicKind (List (Str × Str)) := do
  let (emap, folder_map) ← collectEndpoints schema
  pure (emap.map (fun e =>
    (finalFilePath folder_map e.2.1 e.2.2, joinChar '\n' (joinSep e.2.1))))

end app

namespace specmodel

open http_data

/-- Split at the first space: `breakSpace (m ++ ' ' :: p) = some (m, p)`
when `m` is space-free. -/
def breakSpace : Str → Option (Str × Str)
  | [] => none
  | c :: rest =>
    if c = ' ' then some ([], rest)
    else (breakSpace rest).map (fun mp => (c :: mp.1, mp.2))

/-- Whether a rendered line belongs to the leading comment section. -/
def isCommentLine (l : Str) : Bool :=
  match l with
  | '#' :: _ => true
  | _ => false

/-- Modelled from the spec: re-parsing "a produced request block's
method+path line" (§8 round-trip property).  No parser exists in the
source, so this follows the spec's output contract (§6): the request line
is the first line of the block that is not part of the leading `#` comment
section, and it has the form `METHOD PATH` with the method before the first
space. -/
def parse_request_line (block : Str) : Option (Str × Str) :=
  match (Strutil.splitChar '\n' block).dropWhile isCommentLine with
  | [] => none
  | line :: _ => breakSpace line

end specmodel

namespace open_api

/-- Whether a `Schema` node has at least one source of a declared type: an
`Object` node always does, a composition node only when its member list is
non-empty.  Used to state the corrected non-emptiness invariant of
`get_all_types`. -/
def Schema.has_member_types : Schema → Bool
  | .Object _ => true
  | .AllOf l => !l.isEmpty
  | .AnyOf l => !l.isEmpty
  | .OneOf l => !l.isEmpty
  | .Not l => !l.isEmpty

end open_api

namespace http_data

/-- The cumulative folder chain continuing from an already-joined prefix
`L`: `chainFrom L [a, b] = [L/a, L/a/b]`.  `Names::new`'s folder fold
produces `s :: chainFrom s rest` on segments `s :: rest`. -/
def chainFrom (L : Str) : List Str → List Str
  | [] => []
  | s :: rest => (L ++ '/' :: s) :: chainFrom (L ++ '/' :: s) rest

end http_data

namespace Strutil

theorem splitChar_ne_nil (c : Char) (s : Str) : splitChar c s ≠ [] := by
  induction s with
  | nil => simp [splitChar]
  | cons x xs ih =>
    simp only [splitChar]
    split
    · simp
    · cases h : splitChar c xs with
      | nil => exact absurd h ih
      | cons y ys => simp [List.modifyHead]

theorem modifyHead_modifyHead {α : Type} (f g : α → α) (l : List α) :
    (l.modifyHead g).modifyHead f = l.modifyHead (fun a => f (g a)) := by
  cases l <;> simp [List.modifyHead]

theorem modifyHead_append_of_ne_nil {α : Type} (f : α → α) (l m : List α)
    (h : l ≠ []) : (l ++ m).modifyHead f = l.modifyHead f ++ m := by
  cases l with
  | nil => exact absurd rfl h
  | cons a l => simp [List.modifyHead]

theorem splitChar_cons_self (c : Char) (ys : Str) :
    splitChar c (c :: ys) = [] :: splitChar c ys := by
  simp [splitChar]

/-- Splitting distributes over an explicit separator occurrence. -/
theorem splitChar_append_cons (c : Char) (xs ys : Str) :
    splitChar c (xs ++ c :: ys) = splitChar c xs ++ splitChar c ys := by
  induction xs with
  | nil => simp [splitChar]
  | cons x xs ih =>
    simp only [List.cons_append, splitChar, List.append_eq]
    by_cases hx : x = c
    · simp [hx, ih]
    · rw [if_neg hx, if_neg hx, ih,
        modifyHead_append_of_ne_nil _ _ _ (splitChar_ne_nil c xs)]

/-- Splitting a separator-free prefix glued onto `ys` only changes the head. -/
theorem splitChar_append_of_not_mem (c : Char) (xs ys : Str)
    (h : c ∉ xs) :
    splitChar c (xs ++ ys) = (splitChar c ys).modifyHead (fun y => xs ++ y) := by
  induction xs with
  | nil =>
    cases hs : splitChar c ys with
    | nil => exact absurd hs (splitChar_ne_nil c ys)
    | cons a l => simp [List.modifyHead, hs]
  | cons x xs ih =>
    have hx : x ≠ c := fun hc => h (hc ▸ List.mem_cons_self x xs)
    have hxs : c ∉ xs := fun hm => h (List.mem_cons_of_mem x hm)
    simp only [List.cons_append, splitChar, if_neg hx, List.append_eq,
      ih hxs, modifyHead_modifyHead]

theorem splitChar_of_not_mem (c : Char) (s : Str) (h : c ∉ s) :
    splitChar c s = [s] := by
  have := splitChar_append_of_not_mem c s [] h
  simpa [splitChar, List.modifyHead] using this

/-- Splitting inverts joining when every piece is separator-free. -/
theorem splitChar_joinChar (c : Char) (l : List Str) (hne : l ≠ [])
    (h : ∀ s ∈ l, c ∉ s) :
    splitChar c (joinChar c l) = l := by
  induction l with
  | nil => exact absurd rfl hne
  | cons s rest ih =>
    cases rest with
    | nil => simpa [joinChar] using splitChar_of_not_mem c s (h s (by simp))
    | cons t rest' =>
      have hs : c ∉ s := h s (by simp)
      have hrest : ∀ u ∈ t :: rest', c ∉ u := fun u hu => h u (by simp [hu])
      simp only [joinChar]
      rw [splitChar_append_cons, splitChar_of_not_mem c s hs,
        ih (by simp) hrest]
      simp

theorem not_mem_of_mem_splitChar (c : Char) (s : Str) :
    ∀ p ∈ splitChar c s, c ∉ p := by
  induction s with
  | nil =>
    intro p hp
    simp only [splitChar, List.mem_singleton] at hp
    simp [hp]
  | cons x xs ih =>
    intro p hp
    simp only [splitChar] at hp
    split at hp
    · rcases List.mem_cons.mp hp with h | h
      · simp [h]
      · exact ih p h
    · rename_i hx
      cases hs : splitChar c xs with
      | nil => exact absurd hs (splitChar_ne_nil c xs)
      | cons y ys =>
        rw [hs] at hp
        simp only [List.modifyHead, List.mem_cons] at hp
        rcases hp with h | h
        · subst h
          intro hm
          rcases List.mem_cons.mp hm with h' | h'
          · exact hx h'.symm
          · exact ih y (by rw [hs]; exact List.mem_cons_self y ys) h'
        · exact ih p (by rw [hs]; exact List.mem_cons_of_mem y h)

end Strutil

namespace open_api

theorem foldl_insert_type_eq (l : List Obj) (s : Finset PrimitiveType) :
    l.foldl (fun s o => insert o.type s) s = s ∪ (l.map Obj.type).toFinset := by
  induction l generalizing s with
  | nil => simp
  | cons o rest ih =>
    simp only [List.foldl_cons, List.map_cons, List.toFinset_cons, ih,
      Finset.union_insert, Finset.insert_union]

/-- C4: for every composition node (`allOf`, `anyOf`, `oneOf`, `not`) the
type resolver returns the union of the declared types of the immediate
member sub-schemas (as a set, `(members.map type).toFinset`); in
particular on `{oneOf:[{type:string},{type:integer}]}` it returns exactly
`{String, Integer}`. -/
theorem claim_C4_composition_union :
    (∀ l : List Obj,
      Schema.get_all_types (.AllOf l) = (l.map Obj.type).toFinset ∧
      Schema.get_all_types (.AnyOf l) = (l.map Obj.type).toFinset ∧
      Schema.get_all_types (.OneOf l) = (l.map Obj.type).toFinset ∧
      Schema.get_all_types (.Not l) = (l.map Obj.type).toFinset) ∧
    Schema.get_all_types
        (.OneOf [.mk none none .String, .mk none none .Integer]) =
      {PrimitiveType.String, PrimitiveType.Integer} := by
  constructor
  · intro l
    refine ⟨?_, ?_, ?_, ?_⟩ <;>
      simp [Schema.get_all_types, foldl_insert_type_eq]
  · decide

/-- C5 counterexample: an `allOf` with an empty member list resolves to the
empty set of types, so the claimed non-emptiness invariant fails on the
node `{allOf: []}` (which the data model admits). -/
theorem claim_C5_counterexample :
    Schema.get_all_types (.AllOf []) = (∅ : Finset PrimitiveType) := by
  decide

/-- C5 (amended): resolving a node whose declared-type sources are
non-empty (an `Object` node, or a composition with at least one member)
yields a non-empty set of types, and every resolved type is one of the six
primitive types. -/
theorem claim_C5_types_nonempty (s : Schema)
    (h : s.has_member_types = true) :
    (s.get_all_types).Nonempty ∧
      ∀ t ∈ s.get_all_types,
        t ∈ ({.String, .Number, .Integer, .Boolean, .Array, .Object} :
          Finset PrimitiveType) := by
  refine ⟨?_, fun t _ => by cases t <;> decide⟩
  cases s with
  | Object o => exact ⟨o.type, by simp [Schema.get_all_types]⟩
  | AllOf l | AnyOf l | OneOf l | Not l =>
    cases l with
    | nil => simp [Schema.has_member_types] at h
    | cons o rest =>
      refine ⟨o.type, ?_⟩
      simp [Schema.get_all_types, foldl_insert_type_eq]

/-- C5 witness: the amended theorem applied to a concrete object node. -/
theorem claim_C5_witness :
    (Schema.Object (.mk none none .String)).has_member_types = true ∧
      ((Schema.Object (.mk none none .String)).get_all_types).Nonempty ∧
      ∀ t ∈ (Schema.Object (.mk none none .String)).get_all_types,
        t ∈ ({.String, .Number, .Integer, .Boolean, .Array, .Object} :
          Finset PrimitiveType) :=
  ⟨by decide, claim_C5_types_nonempty _ (by decide)⟩

end open_api

namespace http_data

/-- C3 counterexample: on the path `/{id}` (every segment a path parameter
or empty) `Names::new` reaches `splits.pop().unwrap()` on an empty vector —
a panic (modelled by `Except.error .unwrapNone`) — instead of returning a
`PathResolution` error value; no error-value channel exists in the code. -/
theorem claim_C3_counterexample :
    Names.new "/{id}".data = .error .unwrapNone := by
  decide

/-- C3 (amended): whenever stripping empty and path-parameter segments
leaves nothing, path resolution fails by panicking — the `unwrap` on the
popped empty segment list, surfaced as `.error .unwrapNone` — rather than
returning an error value (the explicit `Invalid endpoint name` guard runs
before the retain and can never fire). -/
theorem claim_C3_zero_segments_panic (value : Str)
    (h : (splitChar '/' value).filter keepSegment = []) :
    Names.new value = .error .unwrapNone := by
  have hne : ¬(splitChar '/' value).length = 0 := by
    simpa [List.length_eq_zero] using splitChar_ne_nil '/' value
  simp [Names.new, hne, h]

/-- C3 witness: the amended theorem applied to the concrete path `/{id}`. -/
theorem claim_C3_witness :
    (splitChar '/' "/{id}".data).filter keepSegment = [] ∧
      Names.new "/{id}".data = .error .unwrapNone :=
  ⟨by decide, claim_C3_zero_segments_panic _ (by decide)⟩

end http_data

namespace app

open open_api http_data

/-- C2: with endpoints `/a` and `/a/b` (one GET each) the program writes
the `/a` document at `/a.http`, not at `/a/a.http` as the file-vs-folder
collision rule requires: the folder set holds `"a"` (no leading slash)
while `file_path` is `"/a"`, so `folder_map.contains(&names.file_path)`
is false and the flat branch is taken — contradicting the code's own
comment "folder with same name as this file would have exist, place this
file into the existing file". -/
theorem claim_C2_collision_branch_dead :
    Application.run
        ⟨[("/a".data, [(.get, ⟨none, none, none⟩)]),
          ("/a/b".data, [(.get, ⟨none, none, none⟩)])], none⟩ =
      .ok [("/a.http".data, "GET /a\nhost: {{HTTP_HOST}}".data),
           ("/a/b.http".data, "GET /a/b\nhost: {{HTTP_HOST}}".data)] ∧
    (("/a.http".data : Str) == "/a/a.http".data) = false ∧
    (collectEndpoints
        ⟨[("/a".data, [(.get, ⟨none, none, none⟩)]),
          ("/a/b".data, [(.get, ⟨none, none, none⟩)])], none⟩).map
      Prod.snd = .ok ["a".data] := by
  refine ⟨by decide, by decide, by decide⟩

end app

namespace http_data

open open_api

/-- C6: if the first security requirement's first key names a scheme
present in the declared scheme table, `get_auth_schema` returns that scheme
immediately with no warning — independently of any later requirements; if
the first key is absent from the table, it returns no scheme and emits
exactly one warning (and does not fail). -/
theorem claim_C6_first_match_policy (name : Str) (scopes : List Str)
    (kvs : List (Str × List Str)) (rest : List (List (Str × List Str)))
    (table : List (Str × SecuritySchema)) :
    (∀ s, tableGet table name = some s →
      get_auth_schema (((name, scopes) :: kvs) :: rest) table = (some s, [])) ∧
    (tableGet table name = none →
      get_auth_schema (((name, scopes) :: kvs) :: rest) table =
        (none, [warnMissing name])) := by
  constructor
  · intro s hs
    simp [get_auth_schema, hs]
  · intro hn
    simp [get_auth_schema, hn]

/-- C6 witness: the spec's concrete example — requirements
`[{"apiKeyAuth": []}]` against a table declaring
`apiKeyAuth: ApiKey{name:"X-Key", in: header}` return that scheme with no
warning; against an empty table the lookup fails with exactly one warning. -/
theorem claim_C6_witness :
    get_auth_schema [[("apiKeyAuth".data, [])]]
        [("apiKeyAuth".data, .ApiKey "X-Key".data .Header)] =
      (some (.ApiKey "X-Key".data .Header), []) ∧
    get_auth_schema [[("apiKeyAuth".data, [])]] [] =
      (none, [warnMissing "apiKeyAuth".data]) :=
  ⟨(claim_C6_first_match_policy "apiKeyAuth".data [] [] []
      [("apiKeyAuth".data, .ApiKey "X-Key".data .Header)]).1 _ (by decide),
   (claim_C6_first_match_policy "apiKeyAuth".data [] [] [] []).2 (by decide)⟩

/-- C7: in the request-body loop, a media-type entry whose key is not
`application/json` leaves the descriptor unchanged (it is skipped), and
every body comment built from a schema's properties carries
`required = Some(b)` where `b` is true iff the property name occurs in the
schema's `required` list (treated as empty when absent) — so the flag is
never absent and defaults to false. -/
theorem claim_C7_json_body_required (d : HttpData) (kv : Str × MediaType)
    (hkv : kv.1 ≠ "application/json".data) :
    bodyStep d kv = d ∧
    ∀ (props : Option (List (Str × Schema))) (required : Option (List Str)),
      ∀ c ∈ create_comment_from_props props required,
        c.required = some ((required.getD []).contains c.name) := by
  constructor
  · simp [bodyStep, hkv]
  · intro props required c hc
    match props with
    | none => simp [create_comment_from_props] at hc
    | some ps =>
      simp only [create_comment_from_props, List.mem_map] at hc
      obtain ⟨kv', _, rfl⟩ := hc
      rfl

/-- C7 witness: a `text/plain` entry is skipped on the default descriptor,
and a property absent from a `required` list yields `required = some
false`. -/
theorem claim_C7_witness :
    bodyStep HttpData.default ("text/plain".data, ⟨none⟩) = HttpData.default ∧
    ∀ c ∈ create_comment_from_props
        (some [("x".data, .Object (.mk none none .String))]) none,
      c.required = some (((none : Option (List Str)).getD []).contains c.name) :=
  ⟨(claim_C7_json_body_required HttpData.default ("text/plain".data, ⟨none⟩)
      (by decide)).1,
   (claim_C7_json_body_required HttpData.default ("text/plain".data, ⟨none⟩)
      (by decide)).2 (some [("x".data, .Object (.mk none none .String))]) none⟩

end http_data

namespace http_data

open open_api

theorem bodyStep_frame (d : HttpData) (kv : Str × MediaType) :
    (bodyStep d kv).comments.query = d.comments.query ∧
    (bodyStep d kv).comments.parameters = d.comments.parameters ∧
    (bodyStep d kv).method = d.method ∧
    (bodyStep d kv).path = d.path ∧
    (bodyStep d kv).host = d.host ∧
    (bodyStep d kv).comments.security = d.comments.security := by
  unfold bodyStep
  split
  · split <;> exact ⟨rfl, rfl, rfl, rfl, rfl, rfl⟩
  · exact ⟨rfl, rfl, rfl, rfl, rfl, rfl⟩

theorem paramStep_frame (d : HttpData) (p : Parameters) :
    (paramStep d p).comments.body = d.comments.body ∧
    (paramStep d p).method = d.method ∧
    (paramStep d p).path = d.path ∧
    (paramStep d p).host = d.host ∧
    (paramStep d p).content_type = d.content_type ∧
    (paramStep d p).auth = d.auth ∧
    (paramStep d p).comments.security = d.comments.security := by
  unfold paramStep
  split
  · exact ⟨rfl, rfl, rfl, rfl, rfl, rfl, rfl⟩
  · split <;> exact ⟨rfl, rfl, rfl, rfl, rfl, rfl, rfl⟩

theorem authStep_frame (d : HttpData) (op : Operation)
    (comps : Option Components) :
    (authStep d op comps).comments.query = d.comments.query ∧
    (authStep d op comps).comments.parameters = d.comments.parameters ∧
    (authStep d op comps).comments.body = d.comments.body ∧
    (authStep d op comps).method = d.method ∧
    (authStep d op comps).path = d.path ∧
    (authStep d op comps).host = d.host ∧
    (authStep d op comps).content_type = d.content_type := by
  unfold authStep
  repeat' split
  all_goals exact ⟨rfl, rfl, rfl, rfl, rfl, rfl, rfl⟩

theorem foldl_bodyStep_query (content : List (Str × MediaType))
    (d : HttpData) :
    (content.foldl bodyStep d).comments.query = d.comments.query := by
  induction content generalizing d with
  | nil => rfl
  | cons kv rest ih => rw [List.foldl_cons, ih, (bodyStep_frame d kv).1]

theorem foldl_bodyStep_parameters (content : List (Str × MediaType))
    (d : HttpData) :
    (content.foldl bodyStep d).comments.parameters = d.comments.parameters := by
  induction content generalizing d with
  | nil => rfl
  | cons kv rest ih => rw [List.foldl_cons, ih, (bodyStep_frame d kv).2.1]

theorem foldl_paramStep_query_types (ps : List Parameters) (d : HttpData)
    (h : ∀ c ∈ d.comments.query,
      c.possible_types = {PrimitiveType.String}) :
    ∀ c ∈ (ps.foldl paramStep d).comments.query,
      c.possible_types = {PrimitiveType.String} := by
  induction ps generalizing d with
  | nil => exact h
  | cons p ps ih =>
    rw [List.foldl_cons]
    apply ih
    intro c hc
    unfold paramStep at hc
    split at hc
    · rcases List.mem_append.mp hc with h' | h'
      · exact h c h'
      · rw [List.mem_singleton.mp h']
    · split at hc
      · exact h c hc
      · exact h c hc

theorem foldl_paramStep_parameters_types (ps : List Parameters)
    (d : HttpData)
    (h : ∀ c ∈ d.comments.parameters,
      c.possible_types = {PrimitiveType.String}) :
    ∀ c ∈ (ps.foldl paramStep d).comments.parameters,
      c.possible_types = {PrimitiveType.String} := by
  induction ps generalizing d with
  | nil => exact h
  | cons p ps ih =>
    rw [List.foldl_cons]
    apply ih
    intro c hc
    unfold paramStep at hc
    split at hc
    · exact h c hc
    · split at hc
      · rcases List.mem_append.mp hc with h' | h'
        · exact h c h'
        · rw [List.mem_singleton.mp h']
      · exact h c hc

/-- C10: every comment the descriptor builder derives from a declared
parameter kept with location `query` or `path` has type set exactly
`{String}`, whatever primitive types the parameter's own schema declares
(the builder never reads `Parameters.schema`). -/
theorem claim_C10_kept_params_string (names : Names) (op : Operation)
    (method : open_api.HttpMethod) (comps : Option Components) :
    (∀ c ∈ (HttpData.new names op method comps).comments.query,
      c.possible_types = {PrimitiveType.String}) ∧
    (∀ c ∈ (HttpData.new names op method comps).comments.parameters,
      c.possible_types = {PrimitiveType.String}) := by
  unfold HttpData.new
  constructor
  · cases hrb : op.request_body with
    | none =>
      simp only [hrb]
      apply foldl_paramStep_query_types
      rw [(authStep_frame _ _ _).1]
      intro c hc
      exact absurd hc (List.not_mem_nil c)
    | some body =>
      simp only [hrb, foldl_bodyStep_query]
      apply foldl_paramStep_query_types
      rw [(authStep_frame _ _ _).1]
      intro c hc
      exact absurd hc (List.not_mem_nil c)
  · cases hrb : op.request_body with
    | none =>
      simp only [hrb]
      apply foldl_paramStep_parameters_types
      rw [(authStep_frame _ _ _).2.1]
      intro c hc
      exact absurd hc (List.not_mem_nil c)
    | some body =>
      simp only [hrb, foldl_bodyStep_parameters]
      apply foldl_paramStep_parameters_types
      rw [(authStep_frame _ _ _).2.1]
      intro c hc
      exact absurd hc (List.not_mem_nil c)

/-- C10 witness: a query parameter declaring `type: integer` in its own
schema still yields the comment type set `{String}`. -/
theorem claim_C10_witness :
    (⟨{PrimitiveType.String}, "q".data, none, none, none⟩ : Comment) ∈
      (HttpData.new ⟨[], "/a".data, "a".data, "/a".data⟩
        ⟨some [⟨"query".data, some (.Object (.mk none none .Integer)),
               "q".data, none, none⟩], none, none⟩ .get none).comments.query ∧
    (⟨{PrimitiveType.String}, "q".data, none, none, none⟩ :
        Comment).possible_types = {PrimitiveType.String} :=
  ⟨by decide,
   (claim_C10_kept_params_string ⟨[], "/a".data, "a".data, "/a".data⟩
      ⟨some [⟨"query".data, some (.Object (.mk none none .Integer)),
             "q".data, none, none⟩], none, none⟩ .get none).1 _ (by decide)⟩

end http_data

namespace http_data

theorem joinChar_cons_cons (c : Char) (a b : Str) (l : List Str) :
    joinChar c (a :: b :: l) = a ++ c :: joinChar c (b :: l) := rfl

theorem joinChar_concat (c : Char) (l : List Str) (x : Str) (h : l ≠ []) :
    joinChar c (l ++ [x]) = joinChar c l ++ c :: x := by
  induction l with
  | nil => exact absurd rfl h
  | cons s rest ih =>
    cases rest with
    | nil => simp [joinChar]
    | cons t rest' =>
      have ih' := ih (by simp)
      rw [List.cons_append] at ih'
      rw [List.cons_append, List.cons_append, joinChar_cons_cons, ih',
        joinChar_cons_cons]
      simp [List.append_assoc]

theorem chainFrom_length (L : Str) (segs : List Str) :
    (chainFrom L segs).length = segs.length := by
  induction segs generalizing L with
  | nil => rfl
  | cons s rest ih => simp [chainFrom, ih]

theorem lastOfSnoc {α : Type} (l : List α) (x : α) :
    (l ++ [x]).getLast? = some x := by
  rw [List.getLast?_append_cons]
  rfl

theorem foldl_foldersStep_chainFrom (segs : List Str) :
    ∀ (acc : List Str) (L : Str), acc.getLast? = some L →
      segs.foldl foldersStep acc = acc ++ chainFrom L segs := by
  induction segs with
  | nil => intro acc L _; simp [chainFrom]
  | cons s rest ih =>
    intro acc L hacc
    rw [List.foldl_cons]
    have hstep : foldersStep acc s = acc ++ [L ++ '/' :: s] := by
      simp [foldersStep, hacc]
    rw [hstep, ih (acc ++ [L ++ '/' :: s]) (L ++ '/' :: s) (lastOfSnoc acc _)]
    simp [chainFrom]

theorem buildFolders_eq (segs : List Str) :
    segs.foldl foldersStep [] =
      match segs with
      | [] => []
      | s :: rest => s :: chainFrom s rest := by
  cases segs with
  | nil => rfl
  | cons s rest =>
    rw [List.foldl_cons]
    have hstep : foldersStep [] s = [s] := by simp [foldersStep]
    rw [hstep, foldl_foldersStep_chainFrom rest [s] s rfl]
    rfl

theorem chainFrom_getq (segs : List Str) :
    ∀ (pre : List Str), pre ≠ [] → ∀ i, i < segs.length →
      (chainFrom (joinChar '/' pre) segs).get? i =
        some (joinChar '/' (pre ++ segs.take (i + 1))) := by
  induction segs with
  | nil =>
    intro pre _ i hi
    exact absurd hi (Nat.not_lt_zero i)
  | cons s rest ih =>
    intro pre hpre i hi
    match i with
    | 0 =>
      show some (joinChar '/' pre ++ '/' :: s) = _
      rw [← joinChar_concat '/' pre s hpre]
      simp
    | i + 1 =>
      show (chainFrom (joinChar '/' pre ++ '/' :: s) rest).get? i = _
      rw [← joinChar_concat '/' pre s hpre,
        ih (pre ++ [s]) (by simp) i (Nat.lt_of_succ_lt_succ hi)]
      simp [List.take_succ_cons, List.append_assoc]

theorem chain'_cons_chainFrom (segs : List Str) :
    ∀ L : Str,
      List.Chain' (fun a b => a <+: b ∧ a ≠ b) (L :: chainFrom L segs) := by
  induction segs with
  | nil => intro L; simp [chainFrom]
  | cons s rest ih =>
    intro L
    rw [chainFrom, List.chain'_cons]
    refine ⟨⟨⟨'/' :: s, rfl⟩, ?_⟩, ih (L ++ '/' :: s)⟩
    intro he
    have := congrArg List.length he
    simp at this

theorem Names.new_ok_fields (value : Str) (n : Names)
    (h : Names.new value = .ok n) :
    (splitChar '/' value).filter keepSegment ≠ [] ∧
    n.folders =
      ((splitChar '/' value).filter keepSegment).dropLast.foldl foldersStep [] ∧
    n.http_path = value := by
  have hne : ¬(splitChar '/' value).length = 0 := by
    simpa [List.length_eq_zero] using splitChar_ne_nil '/' value
  cases hl : ((splitChar '/' value).filter keepSegment).getLast? with
  | none =>
    have hrun : Names.new value = .error .unwrapNone := by
      unfold Names.new
      rw [if_neg hne]
      simp [hl]
    rw [hrun] at h
    cases h
  | some fn =>
    have hrun : Names.new value =
        .ok { folders := ((splitChar '/' value).filter
                keepSegment).dropLast.foldl foldersStep []
              file_path := '/' :: joinChar '/'
                ((splitChar '/' value).filter keepSegment)
              file_name := fn
              http_path := value } := by
      unfold Names.new
      rw [if_neg hne]
      simp [hl]
    rw [hrun] at h
    cases h
    refine ⟨?_, rfl, rfl⟩
    intro hnil
    rw [hnil] at hl
    cases hl

/-- C1: for every path that resolves, the `folders` list of the resulting
`Names` is the cumulative prefix chain of the kept (non-empty,
non-parameter) segments minus the file name — element `i` is the first
`i+1` such segments joined by `/` — it is strictly increasing under the
string-prefix order, and splitting any of its elements back on `/` yields
no path-parameter segment. -/
theorem claim_C1_folders_prefix_chain (value : Str) (n : Names)
    (h : Names.new value = .ok n) :
    (n.folders.length =
        ((splitChar '/' value).filter keepSegment).dropLast.length ∧
      ∀ i (hi : i < n.folders.length),
        n.folders.get ⟨i, hi⟩ =
          joinChar '/'
            ((((splitChar '/' value).filter keepSegment).dropLast).take (i + 1))) ∧
    List.Chain' (fun a b => a <+: b ∧ a ≠ b) n.folders ∧
    ∀ f ∈ n.folders, ∀ seg ∈ splitChar '/' f, is_query_param seg = false := by
  obtain ⟨-, hfolders, -⟩ := Names.new_ok_fields value n h
  have hkeep : ∀ s ∈ ((splitChar '/' value).filter keepSegment).dropLast,
      keepSegment s = true := by
    intro s hs
    exact (List.mem_filter.mp (List.dropLast_subset _ hs)).2
  have hslash : ∀ s ∈ ((splitChar '/' value).filter keepSegment).dropLast,
      '/' ∉ s := by
    intro s hs
    exact not_mem_of_mem_splitChar '/' value s
      (List.mem_filter.mp (List.dropLast_subset _ hs)).1
  rw [hfolders, buildFolders_eq]
  cases hsegs : ((splitChar '/' value).filter keepSegment).dropLast with
  | nil =>
    refine ⟨⟨rfl, ?_⟩, by simp, by simp⟩
    intro i hi
    simp at hi
  | cons s rest =>
    rw [hsegs] at hkeep hslash
    have hget : ∀ i (hi : i < (s :: chainFrom s rest).length),
        (s :: chainFrom s rest).get ⟨i, hi⟩ =
          joinChar '/' ((s :: rest).take (i + 1)) := by
      intro i hi
      match i with
      | 0 => rfl
      | i + 1 =>
        have hlen : i < rest.length := by
          simpa [chainFrom_length] using Nat.lt_of_succ_lt_succ hi
        have hq : (chainFrom s rest).get? i =
            some (joinChar '/' ([s] ++ rest.take (i + 1))) :=
          chainFrom_getq rest [s] (by simp) i hlen
        have hlen' : i < (chainFrom s rest).length := by
          simpa [chainFrom_length] using hlen
        rw [List.get?_eq_get hlen'] at hq
        show (chainFrom s rest).get ⟨i, _⟩ = _
        exact (Option.some.inj hq).trans (by simp [List.take_succ_cons])
    refine ⟨⟨by simp [chainFrom_length], hget⟩, chain'_cons_chainFrom rest s, ?_⟩
    intro f hf seg hseg
    obtain ⟨⟨i, hi⟩, hfi⟩ := List.mem_iff_get.mp hf
    rw [← hfi, hget i hi] at hseg
    have htake_ne : (s :: rest).take (i + 1) ≠ [] := by
      cases rest <;> simp [List.take_succ_cons]
    have htake_sub : ∀ u ∈ (s :: rest).take (i + 1), u ∈ s :: rest :=
      fun u hu => List.take_subset _ _ hu
    rw [splitChar_joinChar '/' _ htake_ne
      (fun u hu => hslash u (htake_sub u hu))] at hseg
    have := hkeep seg (htake_sub seg hseg)
    unfold keepSegment at this
    exact (Bool.eq_false_iff.mpr
      (fun hq => by simp [hq] at this))

/-- C1 witness: the theorem applied to `/a/{id}/b/c`, whose folders are
`["a", "a/b"]`. -/
theorem claim_C1_witness :
    Names.new "/a/{id}/b/c".data =
      .ok ⟨["a".data, "a/b".data], "/a/b/c".data, "c".data,
           "/a/{id}/b/c".data⟩ ∧
    (List.Chain' (fun a b => a <+: b ∧ a ≠ b)
        [("a".data : Str), "a/b".data] ∧
      ∀ f ∈ [("a".data : Str), "a/b".data],
        ∀ seg ∈ splitChar '/' f, is_query_param seg = false) :=
  ⟨by decide,
   (claim_C1_folders_prefix_chain "/a/{id}/b/c".data
      ⟨["a".data, "a/b".data], "/a/b/c".data, "c".data, "/a/{id}/b/c".data⟩
      (by decide)).2⟩

end http_data

namespace http_data

theorem foldl_paramStep_mph (ps : List open_api.Parameters) (d : HttpData) :
    (ps.foldl paramStep d).method = d.method ∧
    (ps.foldl paramStep d).path = d.path ∧
    (ps.foldl paramStep d).host = d.host := by
  induction ps generalizing d with
  | nil => exact ⟨rfl, rfl, rfl⟩
  | cons p ps ih =>
    rw [List.foldl_cons]
    obtain ⟨hm, hp, hh⟩ := ih (paramStep d p)
    exact ⟨hm.trans (paramStep_frame d p).2.1,
      hp.trans (paramStep_frame d p).2.2.1,
      hh.trans (paramStep_frame d p).2.2.2.1⟩

theorem foldl_bodyStep_mph (content : List (Str × open_api.MediaType))
    (d : HttpData) :
    (content.foldl bodyStep d).method = d.method ∧
    (content.foldl bodyStep d).path = d.path ∧
    (content.foldl bodyStep d).host = d.host := by
  induction content generalizing d with
  | nil => exact ⟨rfl, rfl, rfl⟩
  | cons kv rest ih =>
    rw [List.foldl_cons]
    obtain ⟨hm, hp, hh⟩ := ih (bodyStep d kv)
    exact ⟨hm.trans (bodyStep_frame d kv).2.2.1,
      hp.trans (bodyStep_frame d kv).2.2.2.1,
      hh.trans (bodyStep_frame d kv).2.2.2.2.1⟩

theorem HttpData_new_mph (names : Names) (op : open_api.Operation)
    (method : open_api.HttpMethod) (comps : Option open_api.Components) :
    (HttpData.new names op method comps).method = HttpMethodUpper.from method ∧
    (HttpData.new names op method comps).path = names.http_path ∧
    (HttpData.new names op method comps).host = "host: {{HTTP_HOST}}".data := by
  unfold HttpData.new
  have hauth := authStep_frame
    { HttpData.default with
      method := HttpMethodUpper.from method
      path := names.http_path } op comps
  cases hrb : op.request_body with
  | none =>
    simp only [hrb]
    obtain ⟨hm, hp, hh⟩ := foldl_paramStep_mph (op.parameters.getD []) _
    exact ⟨hm.trans hauth.2.2.2.1, hp.trans hauth.2.2.2.2.1,
      hh.trans hauth.2.2.2.2.2.1⟩
  | some body =>
    simp only [hrb]
    obtain ⟨hm2, hp2, hh2⟩ := foldl_bodyStep_mph body.content _
    obtain ⟨hm, hp, hh⟩ := foldl_paramStep_mph (op.parameters.getD []) _
    exact ⟨hm2.trans (hm.trans hauth.2.2.2.1),
      hp2.trans (hp.trans hauth.2.2.2.2.1),
      hh2.trans (hh.trans hauth.2.2.2.2.2.1)⟩

theorem joinNL_around (xs : List Str) (req host : Str) (ys : List Str) :
    ∃ pre post,
      joinChar '\n' (xs ++ req :: host :: ys) =
        pre ++ req ++ '\n' :: host ++ post ∧
      (post = [] ∨ ∃ t, post = '\n' :: t) := by
  induction xs with
  | nil =>
    cases ys with
    | nil =>
      refine ⟨[], [], ?_, Or.inl rfl⟩
      simp [joinChar_cons_cons, joinChar]
    | cons y ys' =>
      refine ⟨[], '\n' :: joinChar '\n' (y :: ys'), ?_, Or.inr ⟨_, rfl⟩⟩
      simp [joinChar_cons_cons, List.append_assoc]
  | cons x xs ih =>
    obtain ⟨pre, post, heq, hpost⟩ := ih
    refine ⟨x ++ '\n' :: pre, post, ?_, hpost⟩
    have hcc : joinChar '\n' ((x :: xs) ++ req :: host :: ys) =
        x ++ '\n' :: joinChar '\n' (xs ++ req :: host :: ys) := by
      cases xs <;> simp [joinChar_cons_cons, List.cons_append]
    rw [hcc, heq]
    simp [List.append_assoc]

/-- C8 counterexample: the rendered block for a plain GET on `/a` has as
its second line `host: {{HTTP_HOST}}` — with a lowercase `h`, coming from
`HttpData::default` — which differs from the claimed exact text
`Host: {{HTTP_HOST}}`. -/
theorem claim_C8_counterexample :
    splitChar '\n'
        ((HttpData.new ⟨[], "/a".data, "a".data, "/a".data⟩
          ⟨none, none, none⟩ .get none).get_formatted) =
      ["GET /a".data, "host: {{HTTP_HOST}}".data] ∧
    (("host: {{HTTP_HOST}}".data : Str) == "Host: {{HTTP_HOST}}".data) =
      false := by
  exact ⟨by decide, by decide⟩

/-- C8 (amended): in every rendered request block, the text immediately
following the `METHOD path` request line is a newline and then the host
line, whose exact text is `host: {{HTTP_HOST}}` (lowercase `h`), the line
ending at a newline or at the end of the block. -/
theorem claim_C8_host_after_request_line (names : Names)
    (op : open_api.Operation) (method : open_api.HttpMethod)
    (comps : Option open_api.Components) :
    ∃ pre post,
      (HttpData.new names op method comps).get_formatted =
        pre ++ ((HttpMethodUpper.from method).to_string ++ ' ' ::
          names.http_path) ++ '\n' :: "host: {{HTTP_HOST}}".data ++ post ∧
      (post = [] ∨ ∃ t, post = '\n' :: t) := by
  obtain ⟨hm, hp, hh⟩ := HttpData_new_mph names op method comps
  simp only [HttpData.get_formatted]
  rw [hm, hp, hh]
  rw [show ∀ (A : List Str) (r h : Str) (C D : List Str),
      A ++ [r] ++ [h] ++ C ++ D = A ++ r :: h :: (C ++ D) from
    fun A r h C D => by simp]
  exact joinNL_around _ _ _ _

end http_data

namespace Strutil

/-- Splitting a joined list gives the concatenation of the splits of the
pieces. -/
theorem splitChar_joinChar_eq_flatten (c : Char) (parts : List Str)
    (h : parts ≠ []) :
    splitChar c (joinChar c parts) = (parts.map (splitChar c)).flatten := by
  induction parts with
  | nil => exact absurd rfl h
  | cons p rest ih =>
    cases rest with
    | nil => simp [joinChar]
    | cons q rest' =>
      rw [http_data.joinChar_cons_cons, splitChar_append_cons, ih (by simp)]
      simp

theorem not_mem_joinChar (c x : Char) (hx : x ≠ c) (l : List Str)
    (h : ∀ s ∈ l, x ∉ s) : x ∉ joinChar c l := by
  induction l with
  | nil => simp [joinChar]
  | cons s rest ih =>
    cases rest with
    | nil => exact h s (by simp)
    | cons t rest' =>
      intro hm
      rcases List.mem_append.mp hm with h' | h'
      · exact h s (by simp) h'
      · rcases List.mem_cons.mp h' with h'' | h''
        · exact hx h''
        · exact ih (fun u hu => h u (List.mem_cons_of_mem s hu)) h''

theorem dropWhile_append_all {α : Type} (P : α → Bool) (A B : List α)
    (hA : ∀ l ∈ A, P l = true) :
    (A ++ B).dropWhile P = B.dropWhile P := by
  induction A with
  | nil => rfl
  | cons a A ih =>
    rw [List.cons_append, List.dropWhile_cons, if_pos (hA a (by simp))]
    exact ih (fun l hl => hA l (List.mem_cons_of_mem a hl))

end Strutil

namespace specmodel

theorem breakSpace_append (m p : Str) (hm : ' ' ∉ m) :
    breakSpace (m ++ ' ' :: p) = some (m, p) := by
  induction m with
  | nil => rfl
  | cons x m ih =>
    have hx : x ≠ ' ' := fun hc => hm (hc ▸ List.mem_cons_self x m)
    rw [List.cons_append]
    simp only [breakSpace, if_neg hx,
      ih (fun hmm => hm (List.mem_cons_of_mem x hmm))]
    rfl

end specmodel

namespace http_data

open open_api specmodel

theorem ptype_no_newline (t : PrimitiveType) : '\n' ∉ t.to_string := by
  cases t <;> decide

theorem comment_fmt_no_newline (c : Comment) (h : '\n' ∉ c.name) :
    '\n' ∉ c.get_formatted := by
  unfold Comment.get_formatted
  intro hm
  have hnwi : '\n' ∉ (match c.required with
      | some false => c.name ++ "?".data
      | _ => c.name) := by
    split
    · intro hm'
      rcases List.mem_append.mp hm' with h' | h'
      · exact h h'
      · simp at h'
    · exact h
  rcases List.mem_append.mp hm with h' | h'
  · rcases List.mem_append.mp h' with h'' | h''
    · exact hnwi h''
    · simp at h''
  · refine not_mem_joinChar ',' '\n' (by decide) _ ?_ h'
    intro s hs
    obtain ⟨t, _, rfl⟩ := List.mem_map.mp hs
    exact ptype_no_newline t

theorem item_lines_hash (cs : List Comment)
    (hcs : ∀ c ∈ cs, '\n' ∉ c.name) :
    ∀ l ∈ splitChar '\n'
      ((cs.map (fun c => "#  - ".data ++ c.get_formatted ++ ['\n'])).flatten
        ++ "#".data),
      isCommentLine l = true := by
  induction cs with
  | nil =>
    intro l hl
    simp only [List.map_nil, List.flatten_nil, List.nil_append] at hl
    rw [splitChar_of_not_mem '\n' "#".data (by decide)] at hl
    rw [List.mem_singleton.mp hl]
    rfl
  | cons c cs ih =>
    intro l hl
    have hfmt : '\n' ∉ "#  - ".data ++ c.get_formatted := by
      intro hm
      rcases List.mem_append.mp hm with h' | h'
      · simp at h'
      · exact comment_fmt_no_newline c (hcs c (by simp)) h'
    have hre :
        ((c :: cs).map
            (fun c => "#  - ".data ++ c.get_formatted ++ ['\n'])).flatten
          ++ "#".data =
        ("#  - ".data ++ c.get_formatted) ++ '\n' ::
          ((cs.map (fun c => "#  - ".data ++ c.get_formatted ++ ['\n'])).flatten
            ++ "#".data) := by
      simp [List.append_assoc]
    rw [hre, splitChar_append_cons,
      splitChar_of_not_mem '\n' _ hfmt] at hl
    rcases List.mem_append.mp hl with h' | h'
    · rw [List.mem_singleton.mp h']
      rfl
    · exact ih (fun u hu => hcs u (List.mem_cons_of_mem c hu)) l h'

theorem section_lines_hash (cs : List Comment) (loc : Str)
    (hloc : '\n' ∉ loc) (hcs : ∀ c ∈ cs, '\n' ∉ c.name) :
    ∀ l ∈ splitChar '\n' (get_formatted_comment cs loc),
      isCommentLine l = true := by
  intro l hl
  have hhead : '\n' ∉ "# ".data ++ loc := by
    intro hm
    rcases List.mem_append.mp hm with h' | h'
    · simp at h'
    · exact hloc h'
  have hre : get_formatted_comment cs loc =
      ("# ".data ++ loc) ++ '\n' ::
        ((cs.map (fun c => "#  - ".data ++ c.get_formatted ++ ['\n'])).flatten
          ++ "#".data) := by
    unfold get_formatted_comment
    simp [List.append_assoc]
  rw [hre, splitChar_append_cons, splitChar_of_not_mem '\n' _ hhead] at hl
  rcases List.mem_append.mp hl with h' | h'
  · rw [List.mem_singleton.mp h']
    rfl
  · exact item_lines_hash cs hcs l h'

theorem mem_if_singleton {α : Type} {p x : α} {c : Prop} [Decidable c]
    (h : p ∈ if c then [x] else ([] : List α)) : p = x := by
  split at h
  · simpa using h
  · simp at h

theorem holder_sections_hash (h : CommentsHolder)
    (hnames : ∀ c ∈ h.query ++ h.parameters ++ h.body, '\n' ∉ c.name) :
    ∀ p ∈ holderSections h, ∀ l ∈ splitChar '\n' p,
      isCommentLine l = true := by
  have hq : ∀ c ∈ h.query, '\n' ∉ c.name := fun c hc =>
    hnames c (by simp [hc])
  have hp : ∀ c ∈ h.parameters, '\n' ∉ c.name := fun c hc =>
    hnames c (by simp [hc])
  have hb : ∀ c ∈ h.body, '\n' ∉ c.name := fun c hc =>
    hnames c (by simp [hc])
  intro p hmem
  rcases List.mem_append.mp hmem with h' | h'
  · rcases List.mem_append.mp h' with h'' | h''
    · rw [mem_if_singleton h'']
      exact section_lines_hash h.query "Query".data (by decide) hq
    · rw [mem_if_singleton h'']
      exact section_lines_hash h.parameters "Parameters".data (by decide) hp
  · rw [mem_if_singleton h']
    exact section_lines_hash h.body "Body".data (by decide) hb

theorem holder_lines_hash (h : CommentsHolder)
    (hnames : ∀ c ∈ h.query ++ h.parameters ++ h.body, '\n' ∉ c.name)
    (hlen : 0 < h.get_formatted.length) :
    ∀ l ∈ splitChar '\n' h.get_formatted, isCommentLine l = true := by
  intro l hl
  have hne : holderSections h ≠ [] := by
    intro hnil
    rw [CommentsHolder.get_formatted, hnil] at hlen
    simp [joinChar] at hlen
  rw [CommentsHolder.get_formatted,
    splitChar_joinChar_eq_flatten '\n' _ hne] at hl
  obtain ⟨piece, hpiece, hlp⟩ := List.mem_flatten.mp hl
  obtain ⟨p, hpmem, rfl⟩ := List.mem_map.mp hpiece
  exact holder_sections_hash h hnames p hpmem l hlp

end http_data

namespace http_data

open open_api specmodel

theorem method_str_facts (method : open_api.HttpMethod) :
    ' ' ∉ (HttpMethodUpper.from method).to_string ∧
    '\n' ∉ (HttpMethodUpper.from method).to_string ∧
    (HttpMethodUpper.from method).to_string = method.get_value := by
  cases method <;> exact ⟨by decide, by decide, rfl⟩

theorem isCommentLine_method (method : open_api.HttpMethod) (r : Str) :
    isCommentLine ((HttpMethodUpper.from method).to_string ++ r) = false := by
  cases method <;> rfl

/-- C9 (amended): provided the raw path and every rendered comment name
contain no newline, formatting a descriptor and then re-parsing the
method-and-path line of the produced block (first non-`#` line, split at
the first space) recovers the original uppercase method and the original
raw path string, path-parameter placeholders included. -/
theorem claim_C9_round_trip (names : Names) (op : open_api.Operation)
    (method : open_api.HttpMethod) (comps : Option open_api.Components)
    (hpath : '\n' ∉ names.http_path)
    (hnames : ∀ c ∈ (HttpData.new names op method comps).comments.query ++
        (HttpData.new names op method comps).comments.parameters ++
        (HttpData.new names op method comps).comments.body,
      '\n' ∉ c.name) :
    parse_request_line ((HttpData.new names op method comps).get_formatted) =
      some (method.get_value, names.http_path) := by
  obtain ⟨hm, hp, hh⟩ := HttpData_new_mph names op method comps
  obtain ⟨hsp, hnl, hgv⟩ := method_str_facts method
  have hout : (HttpData.new names op method comps).get_formatted =
      joinChar '\n'
        ((if 0 <
            (HttpData.new names op method comps).comments.get_formatted.length
          then [(HttpData.new names op method comps).comments.get_formatted]
          else []) ++
          ((HttpMethodUpper.from method).to_string ++ ' ' :: names.http_path) ::
            "host: {{HTTP_HOST}}".data ::
            (optList (HttpData.new names op method comps).content_type ++
              optList (HttpData.new names op method comps).auth)) := by
    simp only [HttpData.get_formatted]
    rw [hm, hp, hh]
    rw [show ∀ (X : List Str) (r h : Str) (C D : List Str),
        X ++ [r] ++ [h] ++ C ++ D = X ++ r :: h :: (C ++ D) from
      fun X r h C D => by simp]
  have hreqnl : '\n' ∉
      (HttpMethodUpper.from method).to_string ++ ' ' :: names.http_path := by
    intro hmem
    rcases List.mem_append.mp hmem with h' | h'
    · exact hnl h'
    · rcases List.mem_cons.mp h' with h'' | h''
      · exact absurd h'' (by decide)
      · exact hpath h''
  have hAhash : ∀ l ∈
      (((if 0 <
          (HttpData.new names op method comps).comments.get_formatted.length
        then [(HttpData.new names op method comps).comments.get_formatted]
        else []) : List Str).map (splitChar '\n')).flatten,
      isCommentLine l = true := by
    intro l hl
    obtain ⟨piece, hpiece, hlp⟩ := List.mem_flatten.mp hl
    obtain ⟨p, hpmem, rfl⟩ := List.mem_map.mp hpiece
    by_cases hc : 0 <
        (HttpData.new names op method comps).comments.get_formatted.length
    · rw [if_pos hc] at hpmem
      rw [List.mem_singleton.mp hpmem] at hlp
      exact holder_lines_hash _ hnames hc l hlp
    · rw [if_neg hc] at hpmem
      simp at hpmem
  have hscrut :
      (splitChar '\n'
          ((HttpData.new names op method comps).get_formatted)).dropWhile
        isCommentLine =
      ((HttpMethodUpper.from method).to_string ++ ' ' :: names.http_path) ::
        ((("host: {{HTTP_HOST}}".data ::
            (optList (HttpData.new names op method comps).content_type ++
              optList (HttpData.new names op method comps).auth)).map
          (splitChar '\n')).flatten) := by
    rw [hout, splitChar_joinChar_eq_flatten '\n' _ (by simp),
      List.map_append, List.flatten_append,
      dropWhile_append_all _ _ _ hAhash,
      List.map_cons, List.flatten_cons,
      splitChar_of_not_mem '\n' _ hreqnl,
      show ∀ (a : Str) (R : List Str), [a] ++ R = a :: R from fun a R => rfl,
      List.dropWhile_cons,
      if_neg (by simp [isCommentLine_method])]
  simp only [parse_request_line, hscrut]
  rw [breakSpace_append _ _ hsp, hgv]

end http_data

namespace http_data

open specmodel

/-- C9 witness: the amended round-trip theorem applied to `/users/{id}`
with one path parameter. -/
theorem claim_C9_witness :
    ('\n' ∉ ("/users/{id}".data : Str)) ∧
    parse_request_line ((HttpData.new
        ⟨[], "/users".data, "users".data, "/users/{id}".data⟩
        ⟨some [⟨"path".data, none, "id".data, some true, none⟩], none, none⟩
        .get none).get_formatted) =
      some ("GET".data, "/users/{id}".data) :=
  ⟨by decide,
   claim_C9_round_trip
     ⟨[], "/users".data, "users".data, "/users/{id}".data⟩
     ⟨some [⟨"path".data, none, "id".data, some true, none⟩], none, none⟩
     .get none (by decide) (by decide)⟩

/-- C9 counterexample: a raw path containing a newline (`/x\ny`) resolves
and formats, but re-parsing the method-and-path line recovers only `/x`,
not the original path — the unrestricted round-trip claim fails. -/
theorem claim_C9_counterexample :
    Names.new "/x\ny".data =
      .ok ⟨[], "/x\ny".data, "x\ny".data, "/x\ny".data⟩ ∧
    parse_request_line ((HttpData.new
        ⟨[], "/x\ny".data, "x\ny".data, "/x\ny".data⟩
        ⟨none, none, none⟩ .get none).get_formatted) =
      some ("GET".data, "/x".data) ∧
    (("/x".data : Str) == "/x\ny".data) = false := by
  exact ⟨by decide, by decide, by decide⟩

end http_data
